import Mathlib

/-!
# Spell checker: trie dictionary, edit distance and suggestions

A shallow embedding of `src/main.cpp`.

* `std::string` is a `List Char`; the characters the program is meant for are
  ASCII, where `Char.isAlpha` / `Char.toLower` agree with `isalpha` / `tolower`
  of the C locale.
* `int` is `Int`; the lengths of the strings are assumed to fit an `int`, as the
  source does when it stores `length()` in an `int`.
* `TrieNode*` is the node value itself (each node is owned by exactly one
  parent), an in-place update through the pointer `curr` is a rebuilt path.
* `unordered_map<char, TrieNode*>` is the list of its entries in iteration
  order, with unique keys.  The standard leaves that order unspecified, so the
  place a new key takes (and any reordering on rehash) is a parameter
  `MapOrder` of the operations that add a key; everything proved below holds
  for every such order.
-/

/-- One `TrieNode`: `children` lists the entries of the `unordered_map` in iteration order. -/
inductive TrieNode where
  | mk (children : List (Char × TrieNode)) (is_end : Bool)

namespace TrieNode

/-- Field `children`. -/
def children : TrieNode → List (Char × TrieNode)
  | mk ch _ => ch

/-- Field `is_end`. -/
def is_end : TrieNode → Bool
  | mk _ e => e

/-- Constructor `TrieNode() : is_end(false) {}` with an empty map. -/
def new : TrieNode := mk [] false

/-- Lookup `children.find(c)`: the node stored under key `c`, if any. -/
def find (c : Char) : List (Char × TrieNode) → Option TrieNode
  | [] => none
  | (k, n) :: rest => if k = c then some n else find c rest

/-- Assignment through `children[c]` for a key that is present: the entry keeps its place. -/
def assign (c : Char) (v : TrieNode) : List (Char × TrieNode) → List (Char × TrieNode)
  | [] => []
  | (k, n) :: rest => if k = c then (k, v) :: rest else (k, n) :: assign c v rest

end TrieNode

/-- Iteration order of `unordered_map` after a key is added: `arrange` receives the new
entry followed by the old entries in their old order and returns the entries in the
new iteration order (some rearrangement of the same entries). -/
structure MapOrder where
  arrange : List (Char × TrieNode) → List (Char × TrieNode)
  perm : ∀ l, (arrange l).Perm l

/-- The order in which a new key is iterated first and nothing else moves. -/
def MapOrder.newestFirst : MapOrder := ⟨fun l => l, fun l => List.Perm.refl l⟩

/-- The order in which a new key is iterated last and nothing else moves. -/
def MapOrder.newestLast : MapOrder :=
  ⟨fun l => l.tail ++ l.head?.toList, fun l => by
    cases l with
    | nil => simp
    | cons a t => simp⟩

/-- Class `Trie`: its only data member is `root`. -/
structure Trie where
  root : TrieNode

/-- Failure of `loadDictionary`: the file cannot be opened and the program ends by `exit(1)`. -/
inductive LoadError where
  | cannotOpen
  deriving DecidableEq, Repr

namespace Trie

/-- Read `dp[i][j]`. -/
def get2 (dp : List (List Int)) (i j : Nat) : Int := (dp.getD i []).getD j 0

/-- Write `dp[i][j] = v`. -/
def set2 (dp : List (List Int)) (i j : Nat) (v : Int) : List (List Int) :=
  dp.set i ((dp.getD i []).set j v)

/-- Character `s[i]`. -/
def charAt (s : List Char) (i : Nat) : Char := s.getD i (Char.ofNat 0)

/-- Body of the inner loop of `editDistance` at `(i, j)`. -/
def editCell (s1 s2 : List Char) (i j : Nat) (dp : List (List Int)) : List (List Int) :=
  if charAt s1 (i - 1) = charAt s2 (j - 1) then
    set2 dp i j (get2 dp (i - 1) (j - 1))
  else
    set2 dp i j (1 + min (get2 dp (i - 1) j) (min (get2 dp i (j - 1)) (get2 dp (i - 1) (j - 1))))

/-- Method `Trie::editDistance`: the table `dp` of `(m + 1) × (n + 1)` zeros, the two
boundary loops, the double loop over `1 ≤ i ≤ m`, `1 ≤ j ≤ n`, and `dp[m][n]`. -/
def editDistance (s1 s2 : List Char) : Int :=
  let m := s1.length
  let n := s2.length
  let dp : List (List Int) := List.replicate (m + 1) (List.replicate (n + 1) 0)
  let dp := (List.range (m + 1)).foldl (fun dp i => set2 dp i 0 (i : Int)) dp
  let dp := (List.range (n + 1)).foldl (fun dp j => set2 dp 0 j (j : Int)) dp
  let dp := (List.range m).foldl (fun dp i0 =>
    (List.range n).foldl (fun dp j0 => editCell s1 s2 (i0 + 1) (j0 + 1) dp) dp) dp
  get2 dp m n

mutual
/-- Method `Trie::dfs`; the state is `(current, suggestions)`. -/
def dfs : TrieNode → List Char → Int → List Char × List (List Char) →
    List Char × List (List Char)
  | .mk ch e, target, max_dist, (current, suggestions) =>
    let suggestions :=
      if e && !current.isEmpty then
        if editDistance current target ≤ max_dist then suggestions ++ [current]
        else suggestions
      else suggestions
    dfsLoop ch target max_dist (current, suggestions)
/-- Loop `for (auto& pair : node->children)` of `dfs`. -/
def dfsLoop : List (Char × TrieNode) → List Char → Int → List Char × List (List Char) →
    List Char × List (List Char)
  | [], _, _, st => st
  | (c, n) :: rest, target, max_dist, (current, suggestions) =>
    let st := dfs n target max_dist (current ++ [c], suggestions)
    dfsLoop rest target max_dist (st.1.dropLast, st.2)
end

/-- Constructor `Trie()`. -/
def new : Trie := ⟨TrieNode.new⟩

/-- Loop of `Trie::insert` from the node `curr`, followed by `curr->is_end = true`. -/
def insertFrom (o : MapOrder) : List Char → TrieNode → TrieNode
  | [], .mk ch _ => .mk ch true
  | c :: cs, .mk ch e =>
    match TrieNode.find c ch with
    | none => .mk (o.arrange ((c, insertFrom o cs TrieNode.new) :: ch)) e
    | some child => .mk (TrieNode.assign c (insertFrom o cs child) ch) e

/-- Method `Trie::insert`. -/
def insert (o : MapOrder) (t : Trie) (word : List Char) : Trie :=
  if word.isEmpty then t else ⟨insertFrom o word t.root⟩

/-- Loop of `Trie::search` from the node `curr`, followed by `return curr->is_end`. -/
def searchFrom : List Char → TrieNode → Bool
  | [], .mk _ e => e
  | c :: cs, .mk ch _ =>
    match TrieNode.find c ch with
    | none => false
    | some child => searchFrom cs child

/-- Method `Trie::search`. -/
def search (t : Trie) (word : List Char) : Bool :=
  if word.isEmpty then false else searchFrom word t.root

/-- Method `Trie::getSuggestions` (the default argument `max_dist = 2` is not modelled:
every call passes it). -/
def getSuggestions (t : Trie) (word : List Char) (max_dist : Int) : List (List Char) :=
  let suggestions := (dfs t.root word max_dist ([], [])).2
  if suggestions.length > 10 then suggestions.take 10 else suggestions

end Trie

namespace Normalizer

/-- Method `Normalizer::normalize`. -/
def normalize (s : List Char) : List Char :=
  s.foldl (fun result c => if c.isAlpha then result ++ [c.toLower] else result) []

end Normalizer

/-- Class `DictionaryManager`: its only data member is `dictionary`. -/
structure DictionaryManager where
  dictionary : Trie

namespace DictionaryManager

/-- Loop `while (file >> word)` of `loadDictionary` over the tokens of the file. -/
def loadWords (o : MapOrder) (tokens : List (List Char)) (dictionary : Trie) : Trie :=
  tokens.foldl (fun d word =>
    let normalized := Normalizer.normalize word
    if !normalized.isEmpty then d.insert o normalized else d) dictionary

/-- Method `loadDictionary`: `file` is `none` when the file cannot be opened, else its
whitespace-separated tokens. -/
def loadDictionary (o : MapOrder) (file : Option (List (List Char))) (dictionary : Trie) :
    Except LoadError Trie :=
  match file with
  | none => .error .cannotOpen
  | some tokens => .ok (loadWords o tokens dictionary)

/-- Constructor `DictionaryManager()`: a new `Trie`, then `loadDictionary`. -/
def create (o : MapOrder) (file : Option (List (List Char))) : Except LoadError DictionaryManager :=
  match loadDictionary o file Trie.new with
  | .error e => .error e
  | .ok d => .ok ⟨d⟩

/-- The manager constructed from a file that opens and holds `tokens`. -/
def ofTokens (o : MapOrder) (tokens : List (List Char)) : DictionaryManager :=
  ⟨loadWords o tokens Trie.new⟩

/-- Method `DictionaryManager::isCorrect`. -/
def isCorrect (dm : DictionaryManager) (word : List Char) : Bool :=
  dm.dictionary.search word

/-- Method `DictionaryManager::getSuggestions`. -/
def getSuggestions (dm : DictionaryManager) (word : List Char) : List (List Char) :=
  dm.dictionary.getSuggestions word 1

end DictionaryManager

/-! ## Specification-side definitions -/

namespace TrieNode

/-- Invariant of `unordered_map`: at every node the keys of `children` are distinct. -/
inductive Valid : TrieNode → Prop
  | mk (ch : List (Char × TrieNode)) (e : Bool) :
      (ch.map Prod.fst).Nodup → (∀ p ∈ ch, Valid p.2) → Valid (.mk ch e)

end TrieNode

namespace Trie

/-- The trie after `insert` of every word of `ws`, in that order, into `Trie()`. -/
def build (o : MapOrder) (ws : List (List Char)) : Trie :=
  ws.foldl (insert o) Trie.new

/-- The table has `m + 1` rows of `n + 1` entries. -/
def Dims (m n : Nat) (dp : List (List Int)) : Prop :=
  dp.length = m + 1 ∧ ∀ i, i ≤ m → (dp.getD i []).length = n + 1

/-- The first `i` characters of `s`, last one first. -/
def revTake (s : List Char) (i : Nat) : List Char := (s.take i).reverse

end Trie

/-- One single-character edit of a string: an insertion, a deletion or a substitution
at any position. -/
inductive Edit : List Char → List Char → Prop
  | insertion (l r : List Char) (c : Char) : Edit (l ++ r) (l ++ c :: r)
  | deletion (l r : List Char) (c : Char) : Edit (l ++ c :: r) (l ++ r)
  | substitution (l r : List Char) (c d : Char) : Edit (l ++ c :: r) (l ++ d :: r)

/-- Sequence of `n` single-character edits that transforms the first string into the
second: `EditSeq n a b`. -/
inductive EditSeq : Nat → List Char → List Char → Prop
  | done (a : List Char) : EditSeq 0 a a
  | step {n : Nat} {a b c : List Char} : Edit a b → EditSeq n b c → EditSeq (n + 1) a c

/-- Alignment of two strings, read from the front, with its number of edits. -/
inductive Align : List Char → List Char → Nat → Prop
  | nil : Align [] [] 0
  | keep (c : Char) {a b : List Char} {n : Nat} : Align a b n → Align (c :: a) (c :: b) n
  | subst (c d : Char) {a b : List Char} {n : Nat} :
      Align a b n → Align (c :: a) (d :: b) (n + 1)
  | ins (d : Char) {a b : List Char} {n : Nat} : Align a b n → Align a (d :: b) (n + 1)
  | del (c : Char) {a b : List Char} {n : Nat} : Align a b n → Align (c :: a) b (n + 1)

/-- Levenshtein distance by the textbook recurrence on the first characters. -/
def lev : List Char → List Char → Nat
  | [], b => b.length
  | x :: a, [] => (x :: a).length
  | x :: a, y :: b =>
    min (lev a (y :: b) + 1) (min (lev (x :: a) b + 1) (lev a b + if x = y then 0 else 1))
termination_by a b => a.length + b.length

/-- One edit, located by the characters in front of it. -/
inductive Step : List Char → List Char → Prop
  | ins (y : Char) (l : List Char) : Step l (y :: l)
  | del (x : Char) (l : List Char) : Step (x :: l) l
  | sub (x y : Char) (l : List Char) : Step (x :: l) (y :: l)
  | cons (z : Char) {l l2 : List Char} : Step l l2 → Step (z :: l) (z :: l2)

namespace Trie

/-- Invariant of the double loop: the boundary, the rows `≤ i0` and the first `j0` interior
entries of row `i0 + 1` hold the distances of the corresponding initial segments. -/
def Inv (s1 s2 : List Char) (dp : List (List Int)) (i0 j0 : Nat) : Prop :=
  Dims s1.length s2.length dp ∧
  ∀ i j, i ≤ s1.length → j ≤ s2.length →
    (i = 0 ∨ j = 0 ∨ i ≤ i0 ∨ (i = i0 + 1 ∧ j ≤ j0)) →
    get2 dp i j = (lev (revTake s1 i) (revTake s2 j) : Int)

end Trie

namespace Trie

mutual
/-- Enumeration of the words below a node, as the specification words it: depth-first
over the children in iteration order, a node's own word before the words of its
descendants, `path` being the string spelled on the way to the node. -/
def enumerateFrom : TrieNode → List Char → List (List Char)
  | .mk ch e, path => (if e then [path] else []) ++ enumerateLoop ch path
/-- Enumeration below each child in turn. -/
def enumerateLoop : List (Char × TrieNode) → List Char → List (List Char)
  | [], _ => []
  | (c, n) :: rest, path => enumerateFrom n (path ++ [c]) ++ enumerateLoop rest path
end

/-- Full enumeration of the trie from its root. -/
def enumerate (t : Trie) : List (List Char) := enumerateFrom t.root []

/-- Test applied to an enumerated word: it is not empty and its distance to the query is
at most `maxDistance`. -/
def withinDistance (query : List Char) (maxDistance : Int) (word : List Char) : Bool :=
  !word.isEmpty && decide (editDistance word query ≤ maxDistance)

/-- Suggestion search as the specification words it: enumerate, keep the words within
the distance, cut the list to the cap. -/
def suggest (t : Trie) (query : List Char) (maxDistance : Int) (resultCap : Nat) :
    List (List Char) :=
  ((enumerate t).filter (withinDistance query maxDistance)).take resultCap

end Trie

namespace Normalizer

/-- What `normalize` does with one character: a letter is lowered, anything else dropped. -/
def normChar (c : Char) : Option Char := if c.isAlpha then some c.toLower else none

end Normalizer

namespace DictionaryManager

/-- The keys that `loadDictionary` inserts: the normalized tokens that are not empty. -/
def keysOf (tokens : List (List Char)) : List (List Char) :=
  (tokens.map Normalizer.normalize).filter (fun w => !w.isEmpty)

end DictionaryManager

namespace Normalizer

/-- Alphabetic character in the words of the specification: one of A-Z, a-z. -/
def isLetter (c : Char) : Bool :=
  (decide ('A' ≤ c) && decide (c ≤ 'Z')) || (decide ('a' ≤ c) && decide (c ≤ 'z'))

/-- Lowercase form of a character: A-Z are moved onto a-z, 32 code points up, and any
other character stays. -/
def lower (c : Char) : Char :=
  if 'A' ≤ c ∧ c ≤ 'Z' then Char.ofNat (c.toNat + 32) else c

end Normalizer

/-! # Theorems -/

/-! ## The map of children -/

namespace TrieNode

theorem valid_new : Valid TrieNode.new :=
  Valid.mk [] false (by simp) (by simp)

theorem Valid.nodup {ch : List (Char × TrieNode)} {e : Bool} (h : Valid (.mk ch e)) :
    (ch.map Prod.fst).Nodup := by
  cases h; assumption

theorem Valid.child {ch : List (Char × TrieNode)} {e : Bool} (h : Valid (.mk ch e))
    {p : Char × TrieNode} (hp : p ∈ ch) : Valid p.2 := by
  cases h with
  | mk _ _ _ hc => exact hc p hp

theorem find_eq_none_iff (c : Char) (l : List (Char × TrieNode)) :
    find c l = none ↔ c ∉ l.map Prod.fst := by
  induction l with
  | nil => simp [find]
  | cons p rest ih =>
    obtain ⟨k, n⟩ := p
    by_cases hk : k = c
    · simp [find, hk]
    · have hk2 : ¬ c = k := fun h => hk h.symm
      simp [find, hk, hk2, ih]

theorem mem_of_find_eq_some {c : Char} {l : List (Char × TrieNode)} {n : TrieNode}
    (h : find c l = some n) : (c, n) ∈ l := by
  induction l with
  | nil => simp [find] at h
  | cons p rest ih =>
    obtain ⟨k, m⟩ := p
    by_cases hk : k = c
    · simp [find, hk] at h
      simp [hk, h]
    · simp [find, hk] at h
      exact List.mem_cons_of_mem _ (ih h)

theorem find_eq_some_of_mem {c : Char} {l : List (Char × TrieNode)} {n : TrieNode}
    (hnd : (l.map Prod.fst).Nodup) (h : (c, n) ∈ l) : find c l = some n := by
  induction l with
  | nil => simp at h
  | cons p rest ih =>
    obtain ⟨k, m⟩ := p
    simp only [List.map_cons, List.nodup_cons] at hnd
    rcases List.mem_cons.1 h with h1 | h1
    · cases h1
      simp [find]
    · have hk : k ≠ c := by
        intro hk
        apply hnd.1
        rw [hk]
        exact List.mem_map_of_mem Prod.fst h1
      simp [find, hk, ih hnd.2 h1]

theorem find_perm (c : Char) {l₁ l₂ : List (Char × TrieNode)} (hp : l₁.Perm l₂)
    (hnd : (l₁.map Prod.fst).Nodup) : find c l₁ = find c l₂ := by
  have hnd2 : (l₂.map Prod.fst).Nodup := (hp.map Prod.fst).nodup_iff.1 hnd
  cases h : find c l₁ with
  | none =>
    have h1 := (find_eq_none_iff c l₁).1 h
    have h2 : c ∉ l₂.map Prod.fst := fun hm => h1 ((hp.map Prod.fst).mem_iff.2 hm)
    exact ((find_eq_none_iff c l₂).2 h2).symm
  | some n =>
    exact (find_eq_some_of_mem hnd2 (hp.mem_iff.1 (mem_of_find_eq_some h))).symm

theorem find_assign {c : Char} {l : List (Char × TrieNode)} {child : TrieNode}
    (h : find c l = some child) (v : TrieNode) (k : Char) :
    find k (assign c v l) = if k = c then some v else find k l := by
  induction l with
  | nil => simp [find] at h
  | cons p rest ih =>
    obtain ⟨a, m⟩ := p
    by_cases ha : a = c
    · subst ha
      by_cases hk : k = a
      · simp [assign, find, hk]
      · have hk2 : ¬ a = k := fun h => hk h.symm
        simp [assign, find, hk, hk2]
    · simp only [find, ha, if_false] at h
      by_cases hk : k = c
      · subst hk
        simp [assign, find, ha, ih h]
      · simp [assign, find, ha, ih h, hk]

theorem map_fst_assign (c : Char) (v : TrieNode) (l : List (Char × TrieNode)) :
    (assign c v l).map Prod.fst = l.map Prod.fst := by
  induction l with
  | nil => simp [assign]
  | cons p rest ih =>
    obtain ⟨a, m⟩ := p
    by_cases ha : a = c <;> simp [assign, ha, ih]

theorem mem_assign {c : Char} {v : TrieNode} {l : List (Char × TrieNode)}
    {p : Char × TrieNode} (h : p ∈ assign c v l) : p ∈ l ∨ p.2 = v := by
  induction l with
  | nil => simp [assign] at h
  | cons q rest ih =>
    obtain ⟨a, m⟩ := q
    by_cases ha : a = c
    · simp only [assign, ha, if_true, List.mem_cons] at h
      rcases h with h | h
      · right; rw [h]
      · left; exact List.mem_cons_of_mem _ h
    · simp only [assign, ha, if_false, List.mem_cons] at h
      rcases h with h | h
      · left; rw [h]; exact List.mem_cons_self _ _
      · rcases ih h with h2 | h2
        · left; exact List.mem_cons_of_mem _ h2
        · right; exact h2

end TrieNode

/-! ## Insertion and exact search -/

namespace Trie

theorem valid_insertFrom (o : MapOrder) (w : List Char) :
    ∀ n : TrieNode, n.Valid → (insertFrom o w n).Valid := by
  induction w with
  | nil =>
    intro n hn
    cases n with
    | mk ch e => exact TrieNode.Valid.mk ch true hn.nodup (fun p hp => hn.child hp)
  | cons c cs ih =>
    intro n hn
    cases n with
    | mk ch e =>
      cases hf : TrieNode.find c ch with
      | none =>
        simp only [insertFrom, hf]
        have hperm := o.perm ((c, insertFrom o cs TrieNode.new) :: ch)
        refine TrieNode.Valid.mk _ e ?_ ?_
        · rw [(hperm.map Prod.fst).nodup_iff]
          simp only [List.map_cons, List.nodup_cons]
          exact ⟨(TrieNode.find_eq_none_iff c ch).1 hf, hn.nodup⟩
        · intro p hp
          rcases List.mem_cons.1 (hperm.mem_iff.1 hp) with h | h
          · rw [h]; exact ih _ TrieNode.valid_new
          · exact hn.child h
      | some child =>
        simp only [insertFrom, hf]
        refine TrieNode.Valid.mk _ e ?_ ?_
        · rw [TrieNode.map_fst_assign]; exact hn.nodup
        · intro p hp
          rcases TrieNode.mem_assign hp with h | h
          · exact hn.child h
          · rw [h]; exact ih _ (hn.child (TrieNode.mem_of_find_eq_some hf))

theorem searchFrom_new (s : List Char) : searchFrom s TrieNode.new = false := by
  cases s <;> simp [searchFrom, TrieNode.new, TrieNode.find]

theorem searchFrom_insertFrom (o : MapOrder) (w : List Char) :
    ∀ (n : TrieNode) (s : List Char), n.Valid →
      searchFrom s (insertFrom o w n) = (decide (s = w) || searchFrom s n) := by
  induction w with
  | nil =>
    intro n s _
    cases n with
    | mk ch e =>
      cases s with
      | nil => simp [insertFrom, searchFrom]
      | cons a as => simp [insertFrom, searchFrom]
  | cons c cs ih =>
    intro n s hn
    cases n with
    | mk ch e =>
      cases s with
      | nil =>
        cases hf : TrieNode.find c ch <;> simp [insertFrom, searchFrom, hf]
      | cons a as =>
        cases hf : TrieNode.find c ch with
        | none =>
          have hperm := o.perm ((c, insertFrom o cs TrieNode.new) :: ch)
          have hnd : ((o.arrange ((c, insertFrom o cs TrieNode.new) :: ch)).map Prod.fst).Nodup := by
            rw [(hperm.map Prod.fst).nodup_iff]
            simp only [List.map_cons, List.nodup_cons]
            exact ⟨(TrieNode.find_eq_none_iff c ch).1 hf, hn.nodup⟩
          simp only [insertFrom, hf, searchFrom]
          rw [TrieNode.find_perm a hperm hnd]
          by_cases hac : a = c
          · subst hac
            simp [TrieNode.find, hf, ih _ as TrieNode.valid_new, searchFrom_new]
          · have hca : ¬ c = a := fun h => hac h.symm
            simp [TrieNode.find, hca, hac]
        | some child =>
          simp only [insertFrom, hf, searchFrom]
          rw [TrieNode.find_assign hf]
          by_cases hac : a = c
          · subst hac
            simp [hf, ih _ as (hn.child (TrieNode.mem_of_find_eq_some hf))]
          · simp [hac]

theorem valid_insert (o : MapOrder) (t : Trie) (w : List Char) (h : t.root.Valid) :
    (insert o t w).root.Valid := by
  unfold insert
  split
  · exact h
  · exact valid_insertFrom o w _ h

theorem search_insert (o : MapOrder) (t : Trie) (w s : List Char) (h : t.root.Valid) :
    search (insert o t w) s = ((decide (s ≠ []) && decide (s = w)) || search t s) := by
  cases s with
  | nil => simp [search]
  | cons a as =>
    cases w with
    | nil => simp [search, insert]
    | cons c cs => simp [search, insert, searchFrom_insertFrom o _ _ _ h]

theorem foldl_insert_spec (o : MapOrder) (ws : List (List Char)) :
    ∀ t : Trie, t.root.Valid →
      (ws.foldl (insert o) t).root.Valid ∧
      ∀ s, search (ws.foldl (insert o) t) s = true ↔ (s ≠ [] ∧ s ∈ ws) ∨ search t s = true := by
  induction ws with
  | nil => intro t ht; simp [ht]
  | cons w ws ih =>
    intro t ht
    have h1 := ih (insert o t w) (valid_insert o t w ht)
    refine ⟨h1.1, fun s => ?_⟩
    rw [List.foldl_cons, h1.2 s, search_insert o t w s ht]
    simp only [List.mem_cons, Bool.or_eq_true, Bool.and_eq_true, decide_eq_true_eq]
    tauto

theorem search_new (s : List Char) : search Trie.new s = false := by
  simp [search, Trie.new, searchFrom_new]

/-- Claim C1: after inserting the words `ws` (in any order, under any iteration order of the
maps) into an empty trie, `search w` is true exactly when `w` is non-empty and is one of
`ws`; `insert` of the empty word changes nothing and `search` of the empty word is false. -/
theorem search_build_iff (o : MapOrder) (ws : List (List Char)) (w : List Char) :
    ((build o ws).search w = true ↔ w ≠ [] ∧ w ∈ ws) ∧
    (∀ t : Trie, t.insert o [] = t) ∧ (∀ t : Trie, t.search [] = false) := by
  refine ⟨?_, fun t => by simp [insert], fun t => by simp [search]⟩
  have h := (foldl_insert_spec o ws Trie.new TrieNode.valid_new).2 w
  simpa [build, search_new] using h

end Trie

/-! ## Edit sequences and Levenshtein distance -/

theorem lev_nil_left (b : List Char) : lev [] b = b.length := by
  rw [lev]

theorem lev_nil_right (a : List Char) : lev a [] = a.length := by
  cases a with
  | nil => rw [lev]
  | cons x a => rw [lev]

theorem lev_cons_cons (x y : Char) (a b : List Char) :
    lev (x :: a) (y :: b) =
      min (lev a (y :: b) + 1) (min (lev (x :: a) b + 1) (lev a b + if x = y then 0 else 1)) := by
  rw [lev]

theorem Align.refl (a : List Char) : Align a a 0 := by
  induction a with
  | nil => exact Align.nil
  | cons c a ih => exact Align.keep c ih

theorem Align.symm {a b : List Char} {n : Nat} (h : Align a b n) : Align b a n := by
  induction h with
  | nil => exact Align.nil
  | keep c _ ih => exact Align.keep c ih
  | subst c d _ ih => exact Align.subst d c ih
  | ins d _ ih => exact Align.del d ih
  | del c _ ih => exact Align.ins c ih

theorem Align.nil_left (b : List Char) : Align [] b b.length := by
  induction b with
  | nil => exact Align.nil
  | cons d b ih => exact Align.ins d ih

theorem Align.nil_right (a : List Char) : Align a [] a.length :=
  (Align.nil_left a).symm

theorem align_lev (a b : List Char) : Align a b (lev a b) := by
  induction a, b using lev.induct with
  | case1 b => rw [lev_nil_left]; exact Align.nil_left b
  | case2 x a => rw [lev_nil_right]; exact Align.nil_right _
  | case3 x a y b ih1 ih2 ih3 =>
    rw [lev_cons_cons]
    rcases min_choice (lev a (y :: b) + 1)
      (min (lev (x :: a) b + 1) (lev a b + if x = y then 0 else 1)) with h | h
    · rw [h]; exact Align.del x ih1
    · rw [h]
      rcases min_choice (lev (x :: a) b + 1) (lev a b + if x = y then 0 else 1) with h2 | h2
      · rw [h2]; exact Align.ins y ih2
      · rw [h2]
        by_cases hxy : x = y
        · subst hxy; simpa using Align.keep x ih3
        · simpa [hxy] using Align.subst x y ih3

theorem lev_le_of_align {a b : List Char} {n : Nat} (h : Align a b n) : lev a b ≤ n := by
  induction h with
  | nil => simp [lev_nil_left]
  | @keep c a b n _ ih =>
    rw [lev_cons_cons]; simp only [if_true]; omega
  | @subst c d a b n _ ih =>
    rw [lev_cons_cons]
    by_cases hcd : c = d
    · simp only [hcd, if_true]; omega
    · simp only [hcd, if_false]; omega
  | @ins d a b n _ ih =>
    cases a with
    | nil => rw [lev_nil_left] at *; simp only [List.length_cons]; omega
    | cons x a => rw [lev_cons_cons]; omega
  | @del c a b n _ ih =>
    cases b with
    | nil => rw [lev_nil_right] at *; simp only [List.length_cons]; omega
    | cons y b => rw [lev_cons_cons]; omega

/-- Dropping the first character of the first string costs at most one more edit. -/
theorem Align.drop_head {x : Char} {a b : List Char} {n : Nat} (h : Align (x :: a) b n) :
    ∃ m, m ≤ n + 1 ∧ Align a b m := by
  generalize hxa : x :: a = xa at h
  induction h generalizing x a with
  | nil => cases hxa
  | @keep c a1 b1 n h1 _ =>
    cases hxa
    exact ⟨n + 1, le_refl _, Align.ins c h1⟩
  | @subst c d a1 b1 n h1 _ =>
    cases hxa
    exact ⟨n + 1, by omega, Align.ins d h1⟩
  | @ins d a1 b1 n _ ih =>
    obtain ⟨m, hm, hal⟩ := ih hxa
    exact ⟨m + 1, by omega, Align.ins d hal⟩
  | @del c a1 b1 n h1 _ =>
    cases hxa
    exact ⟨n, by omega, h1⟩

theorem lev_le_lev_cons_left (x : Char) (a b : List Char) : lev a b ≤ lev (x :: a) b + 1 := by
  obtain ⟨m, hm, hal⟩ := (align_lev (x :: a) b).drop_head
  exact le_trans (lev_le_of_align hal) hm

theorem lev_comm (a b : List Char) : lev a b = lev b a :=
  le_antisymm (lev_le_of_align (align_lev b a).symm) (lev_le_of_align (align_lev a b).symm)

theorem lev_le_lev_cons_right (y : Char) (a b : List Char) : lev a b ≤ lev a (y :: b) + 1 := by
  rw [lev_comm a b, lev_comm a (y :: b)]
  exact lev_le_lev_cons_left y b a

/-- Equal first characters are kept: the case `s1[i - 1] == s2[j - 1]` of the table. -/
theorem lev_cons_same (x : Char) (a b : List Char) : lev (x :: a) (x :: b) = lev a b := by
  have h3 := lev_le_lev_cons_left x a b
  have h4 := lev_le_lev_cons_right x a b
  rw [lev_cons_cons]
  simp only [if_true]
  omega

/-- Different first characters: the case `1 + min(...)` of the table. -/
theorem lev_cons_diff {x y : Char} (h : x ≠ y) (a b : List Char) :
    lev (x :: a) (y :: b) = 1 + min (lev a (y :: b)) (min (lev (x :: a) b) (lev a b)) := by
  rw [lev_cons_cons]
  simp only [h, if_false]
  omega

theorem Edit.toStep {a b : List Char} (h : Edit a b) : Step a b := by
  cases h with
  | insertion l r c =>
    induction l with
    | nil => exact Step.ins c r
    | cons z l ih => exact Step.cons z ih
  | deletion l r c =>
    induction l with
    | nil => exact Step.del c r
    | cons z l ih => exact Step.cons z ih
  | substitution l r c d =>
    induction l with
    | nil => exact Step.sub c d r
    | cons z l ih => exact Step.cons z ih

theorem Edit.consEdit (z : Char) {a b : List Char} (h : Edit a b) : Edit (z :: a) (z :: b) := by
  cases h with
  | insertion l r c => exact Edit.insertion (z :: l) r c
  | deletion l r c => exact Edit.deletion (z :: l) r c
  | substitution l r c d => exact Edit.substitution (z :: l) r c d

theorem Edit.reverseEdit {a b : List Char} (h : Edit a b) : Edit a.reverse b.reverse := by
  cases h with
  | insertion l r c =>
    have h := Edit.insertion r.reverse l.reverse c
    simpa using h
  | deletion l r c =>
    have h := Edit.deletion r.reverse l.reverse c
    simpa using h
  | substitution l r c d =>
    have h := Edit.substitution r.reverse l.reverse c d
    simpa using h

theorem EditSeq.consSeq (z : Char) {n : Nat} {a b : List Char} (h : EditSeq n a b) :
    EditSeq n (z :: a) (z :: b) := by
  induction h with
  | done a => exact EditSeq.done _
  | step he _ ih => exact EditSeq.step (he.consEdit z) ih

theorem EditSeq.reverseSeq {n : Nat} {a b : List Char} (h : EditSeq n a b) :
    EditSeq n a.reverse b.reverse := by
  induction h with
  | done a => exact EditSeq.done _
  | step he _ ih => exact EditSeq.step he.reverseEdit ih

theorem Align.toEditSeq {a b : List Char} {n : Nat} (h : Align a b n) : EditSeq n a b := by
  induction h with
  | nil => exact EditSeq.done []
  | keep c _ ih => exact ih.consSeq c
  | @subst c d a b n _ ih => exact EditSeq.step (Edit.substitution [] a c d) (ih.consSeq d)
  | @ins d a b n _ ih => exact EditSeq.step (Edit.insertion [] a d) (ih.consSeq d)
  | @del c a b n _ ih => exact EditSeq.step (Edit.deletion [] a c) ih

/-- An alignment absorbs one more edit of its first string at the cost of at most one. -/
theorem Align.step_left {b c : List Char} {m : Nat} (h : Align b c m) :
    ∀ a : List Char, Step a b → ∃ k, k ≤ m + 1 ∧ Align a c k := by
  induction h with
  | nil =>
    intro a hs
    cases hs with
    | del x l => exact ⟨1, by omega, Align.del x Align.nil⟩
  | @keep z b1 c1 n h1 ih =>
    intro a hs
    cases hs with
    | ins y l => exact ⟨n + 1, by omega, Align.ins z h1⟩
    | del x l => exact ⟨n + 1, by omega, Align.del x (Align.keep z h1)⟩
    | sub x y l => exact ⟨n + 1, by omega, Align.subst x z h1⟩
    | cons z hs1 =>
      obtain ⟨k, hk, hal⟩ := ih _ hs1
      exact ⟨k, hk, Align.keep z hal⟩
  | @subst z d b1 c1 n h1 ih =>
    intro a hs
    cases hs with
    | ins y l => exact ⟨n + 1, by omega, Align.ins d h1⟩
    | del x l => exact ⟨n + 2, by omega, Align.del x (Align.subst z d h1)⟩
    | sub x y l => exact ⟨n + 1, by omega, Align.subst x d h1⟩
    | cons z hs1 =>
      obtain ⟨k, hk, hal⟩ := ih _ hs1
      exact ⟨k + 1, by omega, Align.subst z d hal⟩
  | @ins d b1 c1 n _ ih =>
    intro a hs
    obtain ⟨k, hk, hal⟩ := ih _ hs
    exact ⟨k + 1, by omega, Align.ins d hal⟩
  | @del z b1 c1 n h1 ih =>
    intro a hs
    cases hs with
    | ins y l => exact ⟨n, by omega, h1⟩
    | del x l => exact ⟨n + 2, by omega, Align.del x (Align.del z h1)⟩
    | sub x y l => exact ⟨n + 1, by omega, Align.del x h1⟩
    | cons z hs1 =>
      obtain ⟨k, hk, hal⟩ := ih _ hs1
      exact ⟨k + 1, by omega, Align.del z hal⟩

theorem lev_le_of_edit {a b : List Char} (h : Edit a b) (c : List Char) :
    lev a c ≤ lev b c + 1 := by
  obtain ⟨k, hk, hal⟩ := (align_lev b c).step_left a h.toStep
  exact le_trans (lev_le_of_align hal) hk

theorem lev_self (a : List Char) : lev a a = 0 :=
  Nat.le_zero.1 (lev_le_of_align (Align.refl a))

theorem lev_le_of_editSeq {n : Nat} {a b : List Char} (h : EditSeq n a b) : lev a b ≤ n := by
  induction h with
  | done a => simp [lev_self]
  | step he _ ih => exact le_trans (lev_le_of_edit he _) (by omega)

theorem editSeq_lev (a b : List Char) : EditSeq (lev a b) a b :=
  (align_lev a b).toEditSeq

/-! ## The table of `editDistance` -/

namespace Trie

theorem getD_set_lt {α : Type} (l : List α) (i j : Nat) (v d : α) (h : i < l.length) :
    (l.set i v).getD j d = if j = i then v else l.getD j d := by
  rw [List.getD_eq_getElem?_getD, List.getD_eq_getElem?_getD, List.getElem?_set]
  by_cases hij : i = j
  · subst hij
    rw [if_pos rfl, if_pos h, if_pos rfl]
    rfl
  · have hji : ¬ j = i := fun h => hij h.symm
    rw [if_neg hij, if_neg hji]

theorem get2_set2 {m n : Nat} {dp : List (List Int)} (hd : Dims m n dp) {i j : Nat}
    (hi : i ≤ m) (hj : j ≤ n) (v : Int) (a b : Nat) :
    get2 (set2 dp i j v) a b = if a = i ∧ b = j then v else get2 dp a b := by
  unfold get2 set2
  rw [getD_set_lt _ _ _ _ _ (by rw [hd.1]; omega)]
  by_cases ha : a = i
  · subst ha
    rw [if_pos rfl, getD_set_lt _ _ _ _ _ (by rw [hd.2 a hi]; omega)]
    by_cases hb : b = j
    · simp [hb]
    · simp [hb]
  · simp [ha]

theorem dims_set2 {m n : Nat} {dp : List (List Int)} (hd : Dims m n dp) (i j : Nat) (v : Int) :
    Dims m n (set2 dp i j v) := by
  refine ⟨by simp [set2, hd.1], fun a ha => ?_⟩
  unfold set2
  by_cases hi : i < dp.length
  · rw [getD_set_lt _ _ _ _ _ hi]
    by_cases hai : a = i
    · subst hai
      rw [if_pos rfl, List.length_set]
      exact hd.2 a ha
    · rw [if_neg hai]
      exact hd.2 a ha
  · rw [List.set_eq_of_length_le (by omega)]
    exact hd.2 a ha

theorem dims_replicate (m n : Nat) :
    Dims m n (List.replicate (m + 1) (List.replicate (n + 1) 0)) := by
  refine ⟨by simp, fun i hi => ?_⟩
  rw [List.getD_eq_getElem?_getD, List.getElem?_replicate, if_pos (by omega)]
  simp

theorem revTake_succ (s : List Char) (i : Nat) (h : i < s.length) :
    revTake s (i + 1) = charAt s i :: revTake s i := by
  unfold revTake charAt
  rw [List.take_succ, List.getD_eq_getElem?_getD, List.getElem?_eq_getElem h]
  simp

theorem revTake_zero (s : List Char) : revTake s 0 = [] := by
  simp [revTake]

theorem revTake_length (s : List Char) : revTake s s.length = s.reverse := by
  simp [revTake]

theorem length_revTake (s : List Char) (i : Nat) (h : i ≤ s.length) :
    (revTake s i).length = i := by
  simp [revTake, h]

/-- First boundary loop: `dp[i][0] = i`. -/
theorem firstLoop_spec (m n : Nat) (dp : List (List Int)) (hd : Dims m n dp) (k : Nat)
    (hk : k ≤ m + 1) :
    Dims m n ((List.range k).foldl (fun dp i => set2 dp i 0 (i : Int)) dp) ∧
    ∀ i, i < k → get2 ((List.range k).foldl (fun dp i => set2 dp i 0 (i : Int)) dp) i 0 = i := by
  induction k with
  | zero => simp [hd]
  | succ k ih =>
    obtain ⟨h1, h2⟩ := ih (by omega)
    rw [List.range_succ, List.foldl_append]
    simp only [List.foldl_cons, List.foldl_nil]
    refine ⟨dims_set2 h1 _ _ _, fun i hi => ?_⟩
    rw [get2_set2 h1 (by omega) (by omega)]
    by_cases hik : i = k
    · simp [hik]
    · rw [if_neg (by simp [hik])]
      exact h2 i (by omega)

/-- Second boundary loop: `dp[0][j] = j`, the first column being kept. -/
theorem secondLoop_spec (m n : Nat) (dp : List (List Int)) (hd : Dims m n dp)
    (hcol : ∀ i, i ≤ m → get2 dp i 0 = i) (k : Nat) (hk : k ≤ n + 1) :
    Dims m n ((List.range k).foldl (fun dp j => set2 dp 0 j (j : Int)) dp) ∧
    (∀ i, i ≤ m → get2 ((List.range k).foldl (fun dp j => set2 dp 0 j (j : Int)) dp) i 0 = i) ∧
    ∀ j, j < k → get2 ((List.range k).foldl (fun dp j => set2 dp 0 j (j : Int)) dp) 0 j = j := by
  induction k with
  | zero => simp [hd]; exact hcol
  | succ k ih =>
    obtain ⟨h1, h2, h3⟩ := ih (by omega)
    rw [List.range_succ, List.foldl_append]
    simp only [List.foldl_cons, List.foldl_nil]
    refine ⟨dims_set2 h1 _ _ _, fun i hi => ?_, fun j hj => ?_⟩
    · rw [get2_set2 h1 (by omega) (by omega)]
      by_cases hik : i = 0 ∧ 0 = k
      · rw [if_pos hik]; simp [hik.1, ← hik.2]
      · rw [if_neg hik]; exact h2 i hi
    · rw [get2_set2 h1 (by omega) (by omega)]
      by_cases hjk : j = k
      · simp [hjk]
      · rw [if_neg (by simp [hjk])]
        exact h3 j (by omega)

theorem inv_editCell (s1 s2 : List Char) (dp : List (List Int)) (i0 j0 : Nat)
    (hi : i0 < s1.length) (hj : j0 < s2.length) (h : Inv s1 s2 dp i0 j0) :
    Inv s1 s2 (editCell s1 s2 (i0 + 1) (j0 + 1) dp) i0 (j0 + 1) := by
  obtain ⟨hd, hv⟩ := h
  have hdiag := hv i0 j0 (by omega) (by omega) (by omega)
  have hup := hv i0 (j0 + 1) (by omega) (by omega) (by omega)
  have hleft := hv (i0 + 1) j0 (by omega) (by omega) (by omega)
  have hnew : get2 (editCell s1 s2 (i0 + 1) (j0 + 1) dp) (i0 + 1) (j0 + 1) =
      (lev (revTake s1 (i0 + 1)) (revTake s2 (j0 + 1)) : Int) := by
    unfold editCell
    simp only [Nat.add_sub_cancel]
    rw [revTake_succ s1 i0 hi, revTake_succ s2 j0 hj]
    by_cases hc : charAt s1 i0 = charAt s2 j0
    · rw [if_pos hc, get2_set2 hd (by omega) (by omega), if_pos ⟨rfl, rfl⟩, hdiag, hc,
        lev_cons_same]
    · rw [if_neg hc, get2_set2 hd (by omega) (by omega), if_pos ⟨rfl, rfl⟩, hdiag, hup, hleft,
        lev_cons_diff hc, revTake_succ s1 i0 hi, revTake_succ s2 j0 hj]
      push_cast
      rfl
  have hold : ∀ i j, ¬ (i = i0 + 1 ∧ j = j0 + 1) →
      get2 (editCell s1 s2 (i0 + 1) (j0 + 1) dp) i j = get2 dp i j := by
    intro i j hij
    unfold editCell
    split <;> rw [get2_set2 hd (by omega) (by omega), if_neg hij]
  refine ⟨?_, fun i j hi2 hj2 hc => ?_⟩
  · unfold editCell
    split <;> exact dims_set2 hd _ _ _
  · by_cases hij : i = i0 + 1 ∧ j = j0 + 1
    · rw [hij.1, hij.2]; exact hnew
    · rw [hold i j hij]
      exact hv i j hi2 hj2 (by omega)

theorem inv_row (s1 s2 : List Char) (i0 : Nat) (hi : i0 < s1.length) (k : Nat)
    (hk : k ≤ s2.length) (dp : List (List Int)) (h : Inv s1 s2 dp i0 0) :
    Inv s1 s2 ((List.range k).foldl (fun dp j0 => editCell s1 s2 (i0 + 1) (j0 + 1) dp) dp)
      i0 k := by
  induction k with
  | zero => simpa using h
  | succ k ih =>
    rw [List.range_succ, List.foldl_append]
    simp only [List.foldl_cons, List.foldl_nil]
    exact inv_editCell s1 s2 _ i0 k hi (by omega) (ih (by omega))

theorem inv_rows (s1 s2 : List Char) (k : Nat) (hk : k ≤ s1.length) (dp : List (List Int))
    (h : Inv s1 s2 dp 0 0) :
    Inv s1 s2 ((List.range k).foldl (fun dp i0 =>
      (List.range s2.length).foldl (fun dp j0 => editCell s1 s2 (i0 + 1) (j0 + 1) dp) dp) dp)
      k 0 := by
  induction k with
  | zero => simpa using h
  | succ k ih =>
    rw [List.range_succ, List.foldl_append]
    simp only [List.foldl_cons, List.foldl_nil]
    obtain ⟨hd, hv⟩ := inv_row s1 s2 k (by omega) s2.length (le_refl _) _ (ih (by omega))
    exact ⟨hd, fun i j hi hj _ => hv i j hi hj (by omega)⟩

theorem inv_init (s1 s2 : List Char) (dp : List (List Int))
    (hd : Dims s1.length s2.length dp) (hcol : ∀ i, i ≤ s1.length → get2 dp i 0 = i)
    (hrow : ∀ j, j ≤ s2.length → get2 dp 0 j = j) : Inv s1 s2 dp 0 0 := by
  refine ⟨hd, fun i j hi hj hc => ?_⟩
  by_cases hi0 : i = 0
  · subst hi0
    rw [hrow j hj, revTake_zero, lev_nil_left, length_revTake s2 j hj]
  · have hj0 : j = 0 := by omega
    subst hj0
    rw [hcol i hi, revTake_zero, lev_nil_right, length_revTake s1 i hi]

/-- The table computes the Levenshtein distance (of the reversed strings, since the table
compares last characters). -/
theorem editDistance_eq_lev_reverse (s1 s2 : List Char) :
    editDistance s1 s2 = (lev s1.reverse s2.reverse : Int) := by
  unfold editDistance
  simp only []
  obtain ⟨hd1, hc1⟩ := firstLoop_spec s1.length s2.length _
    (dims_replicate s1.length s2.length) (s1.length + 1) (le_refl _)
  obtain ⟨hd2, hc2, hr2⟩ := secondLoop_spec s1.length s2.length _ hd1
    (fun i hi => hc1 i (by omega)) (s2.length + 1) (le_refl _)
  have h0 := inv_init s1 s2 _ hd2 hc2 (fun j hj => hr2 j (by omega))
  obtain ⟨_, hv⟩ := inv_rows s1 s2 s1.length (le_refl _) _ h0
  rw [hv s1.length s2.length (le_refl _) (le_refl _) (by omega), revTake_length, revTake_length]

end Trie

/-! ## Edit distance is the Levenshtein distance -/

theorem lev_reverse (a b : List Char) : lev a.reverse b.reverse = lev a b := by
  apply le_antisymm
  · exact lev_le_of_editSeq (editSeq_lev a b).reverseSeq
  · have h := (editSeq_lev a.reverse b.reverse).reverseSeq
    rw [List.reverse_reverse, List.reverse_reverse] at h
    exact lev_le_of_editSeq h

theorem Trie.editDistance_eq_lev (a b : List Char) : Trie.editDistance a b = (lev a b : Int) := by
  rw [Trie.editDistance_eq_lev_reverse, lev_reverse]

/-- Claim C2: `editDistance a b` is the Levenshtein distance of `a` and `b`: some sequence
of that many single-character insertions, deletions and substitutions transforms `a` into
`b`, and no sequence that does so is shorter. -/
theorem Trie.editDistance_is_levenshtein (a b : List Char) :
    ∃ d : Nat, Trie.editDistance a b = (d : Int) ∧ EditSeq d a b ∧
      ∀ n : Nat, EditSeq n a b → d ≤ n :=
  ⟨lev a b, Trie.editDistance_eq_lev a b, editSeq_lev a b, fun _ h => lev_le_of_editSeq h⟩

/-! ## Suggestions: the traversal and the enumeration -/

namespace Trie

mutual
theorem dfs_eq_enumerate : ∀ (n : TrieNode) (target : List Char) (k : Int) (current : List Char)
    (acc : List (List Char)),
    dfs n target k (current, acc) =
      (current, acc ++ (enumerateFrom n current).filter (withinDistance target k))
  | .mk ch e, target, k, current, acc => by
    rw [dfs, enumerateFrom, dfsLoop_eq_enumerate ch target k current]
    cases e with
    | false => simp
    | true =>
      by_cases hc : current.isEmpty = true
      · simp [hc, withinDistance, List.filter_cons]
      · by_cases hd : editDistance current target ≤ k
        · simp [hc, hd, withinDistance, List.filter_cons]
        · simp [hc, hd, withinDistance, List.filter_cons]
theorem dfsLoop_eq_enumerate : ∀ (ch : List (Char × TrieNode)) (target : List Char) (k : Int)
    (current : List Char) (acc : List (List Char)),
    dfsLoop ch target k (current, acc) =
      (current, acc ++ (enumerateLoop ch current).filter (withinDistance target k))
  | [], target, k, current, acc => by
    simp [dfsLoop, enumerateLoop]
  | (c, n) :: rest, target, k, current, acc => by
    rw [dfsLoop, enumerateLoop, dfs_eq_enumerate n target k (current ++ [c]) acc]
    simp only [List.dropLast_concat]
    rw [dfsLoop_eq_enumerate rest target k current]
    simp
end

theorem getSuggestions_eq_take (t : Trie) (q : List Char) (k : Int) :
    t.getSuggestions q k = (t.enumerate.filter (withinDistance q k)).take 10 := by
  unfold getSuggestions enumerate
  rw [dfs_eq_enumerate]
  simp only [List.nil_append]
  split
  · rfl
  · rw [List.take_of_length_le (by omega)]

end Trie

/-! ## What the enumeration lists -/

namespace Trie

theorem searchFrom_cons (c : Char) (s : List Char) (ch : List (Char × TrieNode)) (e : Bool) :
    searchFrom (c :: s) (.mk ch e) = true ↔
      ∃ child, TrieNode.find c ch = some child ∧ searchFrom s child = true := by
  rw [searchFrom]
  cases TrieNode.find c ch with
  | none => simp
  | some child => simp

mutual
theorem mem_enumerateFrom : ∀ (n : TrieNode) (path w : List Char), n.Valid →
    (w ∈ enumerateFrom n path ↔ ∃ s, w = path ++ s ∧ searchFrom s n = true)
  | .mk ch e, path, w, hv => by
    rw [enumerateFrom, List.mem_append,
      mem_enumerateLoop ch path w hv.nodup (fun p hp => hv.child hp)]
    constructor
    · rintro (h | ⟨c, s, child, hf, hw, hs⟩)
      · cases e with
        | false => simp at h
        | true =>
          simp only [if_true, List.mem_singleton] at h
          exact ⟨[], by simp [h], by simp [searchFrom]⟩
      · exact ⟨c :: s, hw, (searchFrom_cons c s ch e).2 ⟨child, hf, hs⟩⟩
    · rintro ⟨s, hw, hs⟩
      cases s with
      | nil =>
        left
        simp only [searchFrom] at hs
        simp [hs, hw]
      | cons c s =>
        right
        obtain ⟨child, hf, hs2⟩ := (searchFrom_cons c s ch e).1 hs
        exact ⟨c, s, child, hf, hw, hs2⟩
theorem mem_enumerateLoop : ∀ (ch : List (Char × TrieNode)) (path w : List Char),
    (ch.map Prod.fst).Nodup → (∀ p ∈ ch, TrieNode.Valid p.2) →
    (w ∈ enumerateLoop ch path ↔
      ∃ c s child, TrieNode.find c ch = some child ∧ w = path ++ c :: s ∧
        searchFrom s child = true)
  | [], path, w, _, _ => by
    simp [enumerateLoop, TrieNode.find]
  | (c0, n0) :: rest, path, w, hnd, hv => by
    have hnd2 : c0 ∉ rest.map Prod.fst ∧ (rest.map Prod.fst).Nodup := by
      simpa using hnd
    rw [enumerateLoop, List.mem_append,
      mem_enumerateFrom n0 (path ++ [c0]) w (hv (c0, n0) (List.mem_cons_self _ _)),
      mem_enumerateLoop rest path w hnd2.2 (fun p hp => hv p (List.mem_cons_of_mem _ hp))]
    constructor
    · rintro (⟨s, hw, hs⟩ | ⟨c, s, child, hf, hw, hs⟩)
      · exact ⟨c0, s, n0, by simp [TrieNode.find], by simp [hw], hs⟩
      · have hc : c0 ≠ c := by
          intro h
          apply hnd2.1
          rw [h]
          exact List.mem_map_of_mem Prod.fst (TrieNode.mem_of_find_eq_some hf)
        exact ⟨c, s, child, by simp [TrieNode.find, hc, hf], hw, hs⟩
    · rintro ⟨c, s, child, hf, hw, hs⟩
      by_cases hc : c0 = c
      · subst hc
        simp only [TrieNode.find, if_true, Option.some.injEq] at hf
        subst hf
        left
        exact ⟨s, by simp [hw], hs⟩
      · simp only [TrieNode.find, hc, if_false] at hf
        right
        exact ⟨c, s, child, hf, hw, hs⟩
end

mutual
theorem nodup_enumerateFrom : ∀ (n : TrieNode) (path : List Char), n.Valid →
    (enumerateFrom n path).Nodup
  | .mk ch e, path, hv => by
    rw [enumerateFrom, List.nodup_append]
    refine ⟨by cases e <;> simp,
      nodup_enumerateLoop ch path hv.nodup (fun p hp => hv.child hp), ?_⟩
    intro w hw1 hw2
    rw [mem_enumerateLoop ch path w hv.nodup (fun p hp => hv.child hp)] at hw2
    obtain ⟨c, s, child, _, hw, _⟩ := hw2
    cases e with
    | false => simp at hw1
    | true =>
      simp only [if_true, List.mem_singleton] at hw1
      rw [hw1] at hw
      have := congrArg List.length hw
      simp at this
theorem nodup_enumerateLoop : ∀ (ch : List (Char × TrieNode)) (path : List Char),
    (ch.map Prod.fst).Nodup → (∀ p ∈ ch, TrieNode.Valid p.2) →
    (enumerateLoop ch path).Nodup
  | [], path, _, _ => by
    simp [enumerateLoop]
  | (c0, n0) :: rest, path, hnd, hv => by
    have hnd2 : c0 ∉ rest.map Prod.fst ∧ (rest.map Prod.fst).Nodup := by
      simpa using hnd
    rw [enumerateLoop, List.nodup_append]
    refine ⟨nodup_enumerateFrom n0 (path ++ [c0]) (hv (c0, n0) (List.mem_cons_self _ _)),
      nodup_enumerateLoop rest path hnd2.2 (fun p hp => hv p (List.mem_cons_of_mem _ hp)), ?_⟩
    intro w hw1 hw2
    rw [mem_enumerateFrom n0 (path ++ [c0]) w (hv (c0, n0) (List.mem_cons_self _ _))] at hw1
    rw [mem_enumerateLoop rest path w hnd2.2
      (fun p hp => hv p (List.mem_cons_of_mem _ hp))] at hw2
    obtain ⟨s, hw, _⟩ := hw1
    obtain ⟨c, s2, child, hf, hw2, _⟩ := hw2
    rw [hw, List.append_assoc] at hw2
    have h := List.append_cancel_left hw2
    simp only [List.singleton_append, List.cons.injEq] at h
    apply hnd2.1
    rw [h.1]
    exact List.mem_map_of_mem Prod.fst (TrieNode.mem_of_find_eq_some hf)
end

theorem mem_enumerate (t : Trie) (hv : t.root.Valid) (w : List Char) :
    w ∈ t.enumerate ↔ searchFrom w t.root = true := by
  rw [enumerate, mem_enumerateFrom t.root [] w hv]
  simp

theorem nodup_enumerate (t : Trie) (hv : t.root.Valid) : t.enumerate.Nodup :=
  nodup_enumerateFrom t.root [] hv

theorem mem_filter_enumerate (t : Trie) (hv : t.root.Valid) (q : List Char) (k : Int)
    (w : List Char) :
    w ∈ t.enumerate.filter (withinDistance q k) ↔
      t.search w = true ∧ editDistance w q ≤ k := by
  rw [List.mem_filter, mem_enumerate t hv]
  cases w with
  | nil => simp [withinDistance, search]
  | cons c s => simp [withinDistance, search]

theorem valid_build (o : MapOrder) (ws : List (List Char)) : (build o ws).root.Valid :=
  (foldl_insert_spec o ws Trie.new TrieNode.valid_new).1

theorem search_build (o : MapOrder) (ws : List (List Char)) (w : List Char) :
    (build o ws).search w = true ↔ w ≠ [] ∧ w ∈ ws := by
  have h := (foldl_insert_spec o ws Trie.new TrieNode.valid_new).2 w
  simpa [build, search_new] using h

end Trie

/-! ## Normalization -/

namespace Normalizer

theorem foldl_normalize (s acc : List Char) :
    s.foldl (fun result c => if c.isAlpha then result ++ [c.toLower] else result) acc =
      acc ++ s.filterMap normChar := by
  induction s generalizing acc with
  | nil => simp
  | cons c s ih =>
    rw [List.foldl_cons, ih]
    by_cases hc : c.isAlpha = true
    · simp [normChar, hc, List.filterMap_cons]
    · simp [normChar, hc, List.filterMap_cons]

theorem normalize_eq_filterMap (s : List Char) : normalize s = s.filterMap normChar := by
  unfold normalize
  rw [foldl_normalize]
  simp

theorem ascii_alpha_props : ∀ n : Nat, n < 128 → (Char.ofNat n).isAlpha = true →
    ((Char.ofNat n).toLower.isAlpha = true ∧
      (Char.ofNat n).toLower.toLower = (Char.ofNat n).toLower) := by
  decide

theorem val_le_iff (c : Char) (k : Nat) (hk : k < 4294967296) :
    (c.val ≤ UInt32.ofNat k) ↔ c.toNat ≤ k := by
  show c.val.toBitVec.toNat ≤ (UInt32.ofNat k).toBitVec.toNat ↔ c.val.toBitVec.toNat ≤ k
  have : (UInt32.ofNat k).toBitVec.toNat = k := by
    show (BitVec.ofNat 32 k).toNat = k
    simp [BitVec.toNat_ofNat]; omega
  rw [this]

theorem toNat_lt_of_isAlpha (c : Char) (h : c.isAlpha = true) : c.toNat < 128 := by
  simp only [Char.isAlpha, Char.isUpper, Char.isLower, Bool.or_eq_true, Bool.and_eq_true,
    decide_eq_true_eq, ge_iff_le] at h
  have h90 : (c.val ≤ 90) ↔ c.toNat ≤ 90 := val_le_iff c 90 (by omega)
  have h122 : (c.val ≤ 122) ↔ c.toNat ≤ 122 := val_le_iff c 122 (by omega)
  rcases h with h | h
  · have := h90.1 h.2; omega
  · have := h122.1 h.2; omega

theorem toLower_props (c : Char) (h : c.isAlpha = true) :
    c.toLower.isAlpha = true ∧ c.toLower.toLower = c.toLower := by
  have h1 := ascii_alpha_props c.toNat (toNat_lt_of_isAlpha c h)
  rw [Char.ofNat_toNat] at h1
  exact h1 h

theorem normChar_normChar {c d : Char} (h : normChar c = some d) : normChar d = some d := by
  unfold normChar at h
  by_cases hc : c.isAlpha = true
  · simp only [hc, if_true, Option.some.injEq] at h
    subst h
    obtain ⟨h1, h2⟩ := toLower_props c hc
    simp [normChar, h1, h2]
  · simp [hc] at h

theorem normalize_idem (s : List Char) : normalize (normalize s) = normalize s := by
  rw [normalize_eq_filterMap, normalize_eq_filterMap]
  induction s with
  | nil => simp
  | cons c s ih =>
    cases hc : normChar c with
    | none => simp [List.filterMap_cons, hc, ih]
    | some d => simp [List.filterMap_cons, hc, ih, normChar_normChar hc]

end Normalizer

/-- Dropping and renaming characters by one rule on both strings does not add edits. -/
theorem Align.filterMap_le (f : Char → Option Char) {a b : List Char} {n : Nat}
    (h : Align a b n) : ∃ m, m ≤ n ∧ Align (a.filterMap f) (b.filterMap f) m := by
  induction h with
  | nil => exact ⟨0, le_refl _, by simpa using Align.nil⟩
  | @keep c a b n _ ih =>
    obtain ⟨m, hm, hal⟩ := ih
    cases hc : f c with
    | none => exact ⟨m, hm, by simpa [List.filterMap_cons, hc] using hal⟩
    | some c2 => exact ⟨m, hm, by simpa [List.filterMap_cons, hc] using Align.keep c2 hal⟩
  | @subst c d a b n _ ih =>
    obtain ⟨m, hm, hal⟩ := ih
    cases hc : f c with
    | none =>
      cases hd : f d with
      | none => exact ⟨m, by omega, by simpa [List.filterMap_cons, hc, hd] using hal⟩
      | some d2 =>
        exact ⟨m + 1, by omega, by simpa [List.filterMap_cons, hc, hd] using Align.ins d2 hal⟩
    | some c2 =>
      cases hd : f d with
      | none =>
        exact ⟨m + 1, by omega, by simpa [List.filterMap_cons, hc, hd] using Align.del c2 hal⟩
      | some d2 =>
        exact ⟨m + 1, by omega,
          by simpa [List.filterMap_cons, hc, hd] using Align.subst c2 d2 hal⟩
  | @ins d a b n _ ih =>
    obtain ⟨m, hm, hal⟩ := ih
    cases hd : f d with
    | none => exact ⟨m, by omega, by simpa [List.filterMap_cons, hd] using hal⟩
    | some d2 =>
      exact ⟨m + 1, by omega, by simpa [List.filterMap_cons, hd] using Align.ins d2 hal⟩
  | @del c a b n _ ih =>
    obtain ⟨m, hm, hal⟩ := ih
    cases hc : f c with
    | none => exact ⟨m, by omega, by simpa [List.filterMap_cons, hc] using hal⟩
    | some c2 =>
      exact ⟨m + 1, by omega, by simpa [List.filterMap_cons, hc] using Align.del c2 hal⟩

theorem lev_filterMap_le (f : Char → Option Char) (a b : List Char) :
    lev (a.filterMap f) (b.filterMap f) ≤ lev a b := by
  obtain ⟨m, hm, hal⟩ := (align_lev a b).filterMap_le f
  exact le_trans (lev_le_of_align hal) hm

theorem lev_normalize_le (a b : List Char) :
    lev (Normalizer.normalize a) (Normalizer.normalize b) ≤ lev a b := by
  rw [Normalizer.normalize_eq_filterMap, Normalizer.normalize_eq_filterMap]
  exact lev_filterMap_le _ a b

/-! ## The dictionary -/

namespace DictionaryManager

theorem loadWords_eq_foldl (o : MapOrder) (tokens : List (List Char)) (d : Trie) :
    loadWords o tokens d = (keysOf tokens).foldl (Trie.insert o) d := by
  unfold loadWords keysOf
  induction tokens generalizing d with
  | nil => simp
  | cons t ts ih =>
    rw [List.foldl_cons, ih]
    by_cases ht : (Normalizer.normalize t).isEmpty = true
    · simp [ht, List.filter_cons]
    · simp [ht, List.filter_cons]

theorem dictionary_ofTokens (o : MapOrder) (tokens : List (List Char)) :
    (ofTokens o tokens).dictionary = Trie.build o (keysOf tokens) := by
  unfold ofTokens Trie.build
  rw [loadWords_eq_foldl]

theorem mem_keysOf (tokens : List (List Char)) (w : List Char) :
    w ∈ keysOf tokens ↔ w ≠ [] ∧ ∃ t ∈ tokens, Normalizer.normalize t = w := by
  unfold keysOf
  rw [List.mem_filter, List.mem_map]
  cases w <;> simp

theorem normalize_of_mem_keysOf {tokens : List (List Char)} {w : List Char}
    (h : w ∈ keysOf tokens) : Normalizer.normalize w = w := by
  obtain ⟨_, t, _, ht⟩ := (mem_keysOf tokens w).1 h
  rw [← ht, Normalizer.normalize_idem]

end DictionaryManager

/-! ## Suggestions of a dictionary -/

namespace Trie

theorem mem_getSuggestions {t : Trie} (hv : t.root.Valid) {q : List Char} {k : Int}
    {w : List Char} (h : w ∈ t.getSuggestions q k) :
    t.search w = true ∧ editDistance w q ≤ k := by
  rw [getSuggestions_eq_take] at h
  exact (mem_filter_enumerate t hv q k w).1 (List.mem_of_mem_take h)

theorem getSuggestions_of_length_le {t : Trie} {q : List Char} {k : Int}
    (h : (t.enumerate.filter (withinDistance q k)).length ≤ 10) :
    t.getSuggestions q k = t.enumerate.filter (withinDistance q k) := by
  rw [getSuggestions_eq_take, List.take_of_length_le h]

/-- The matching words of the trie are at most as many as any list that holds them all. -/
theorem length_filter_enumerate_le {t : Trie} (hv : t.root.Valid) (q : List Char) (k : Int)
    (l : List (List Char))
    (h : ∀ w, t.search w = true → editDistance w q ≤ k → w ∈ l) :
    (t.enumerate.filter (withinDistance q k)).length ≤ l.length := by
  have hnd : (t.enumerate.filter (withinDistance q k)).Nodup :=
    (nodup_enumerate t hv).filter _
  have hsub : t.enumerate.filter (withinDistance q k) ⊆ l := by
    intro w hw
    obtain ⟨h1, h2⟩ := (mem_filter_enumerate t hv q k w).1 hw
    exact h w h1 h2
  exact (List.subperm_of_subset hnd hsub).length_le

end Trie

theorem count_eq_one_of_nodup_mem {α : Type} [BEq α] [LawfulBEq α] {l : List α} {a : α}
    (hnd : l.Nodup) (h : a ∈ l) : l.count a = 1 := by
  induction l with
  | nil => simp at h
  | cons b l ih =>
    rw [List.nodup_cons] at hnd
    rw [List.count_cons]
    rcases List.mem_cons.1 h with h1 | h1
    · subst h1
      rw [List.count_eq_zero_of_not_mem hnd.1]
      simp
    · have hb : ¬ b = a := by
        intro hba
        subst hba
        exact hnd.1 h1
      rw [ih hnd.2 h1]
      simp [hb]

/-! ## The claims about suggestions -/

/-- Claim C3: for a dictionary loaded from any list of tokens, every entry returned by
`DictionaryManager.getSuggestions word` has edit distance at most 1 from
`normalize word`. -/
theorem DictionaryManager.getSuggestions_near_normalized (o : MapOrder)
    (tokens : List (List Char)) (word e : List Char)
    (h : e ∈ (DictionaryManager.ofTokens o tokens).getSuggestions word) :
    Trie.editDistance e (Normalizer.normalize word) ≤ 1 := by
  unfold DictionaryManager.getSuggestions at h
  rw [DictionaryManager.dictionary_ofTokens] at h
  obtain ⟨h1, h2⟩ := Trie.mem_getSuggestions (Trie.valid_build o _) h
  have hkey := ((Trie.search_build o _ e).1 h1).2
  have hnorm := DictionaryManager.normalize_of_mem_keysOf hkey
  rw [Trie.editDistance_eq_lev] at h2 ⊢
  have h3 := lev_normalize_le e word
  rw [hnorm] at h3
  have h4 : (lev e (Normalizer.normalize word) : Int) ≤ (lev e word : Int) := by
    exact_mod_cast h3
  exact le_trans h4 h2

/-- Witness of C3: the dictionary of the token `Cat!` asked for `c-at`. -/
theorem DictionaryManager.getSuggestions_near_normalized_witness :
    "cat".toList ∈ (DictionaryManager.ofTokens MapOrder.newestLast
        ["Cat!".toList]).getSuggestions "c-at".toList ∧
    Trie.editDistance "cat".toList (Normalizer.normalize "c-at".toList) ≤ 1 :=
  ⟨by decide, DictionaryManager.getSuggestions_near_normalized MapOrder.newestLast
    ["Cat!".toList] "c-at".toList "cat".toList (by decide)⟩

/-- Claim C4: `Trie.getSuggestions`, and so `DictionaryManager.getSuggestions`, returns at
most 10 entries, for every trie, query and `max_dist`. -/
theorem Trie.getSuggestions_length_le (t : Trie) (q : List Char) (k : Int)
    (dm : DictionaryManager) (word : List Char) :
    (t.getSuggestions q k).length ≤ 10 ∧ (dm.getSuggestions word).length ≤ 10 := by
  have h : ∀ (t : Trie) (q : List Char) (k : Int), (t.getSuggestions q k).length ≤ 10 := by
    intro t q k
    unfold Trie.getSuggestions
    simp only []
    split
    · rw [List.length_take]; omega
    · omega
  exact ⟨h t q k, h dm.dictionary word 1⟩

/-- Claim C5: every entry that `getSuggestions` returns on a trie built by insertions is
a stored word: it is not empty, `search` finds it, and it is one of the inserted words. -/
theorem Trie.getSuggestions_stored (o : MapOrder) (ws : List (List Char)) (q : List Char)
    (k : Int) (w : List Char) (h : w ∈ (Trie.build o ws).getSuggestions q k) :
    w ≠ [] ∧ (Trie.build o ws).search w = true ∧ w ∈ ws := by
  obtain ⟨h1, _⟩ := Trie.mem_getSuggestions (Trie.valid_build o ws) h
  obtain ⟨h2, h3⟩ := (Trie.search_build o ws w).1 h1
  exact ⟨h2, h1, h3⟩

/-- Witness of C5: `cat` among the suggestions for `caat` at distance 1. -/
theorem Trie.getSuggestions_stored_witness :
    "cat".toList ∈ (Trie.build MapOrder.newestLast
        ["cat".toList, "dog".toList]).getSuggestions "caat".toList 1 ∧
    ("cat".toList ≠ [] ∧
      (Trie.build MapOrder.newestLast ["cat".toList, "dog".toList]).search "cat".toList = true ∧
      "cat".toList ∈ ["cat".toList, "dog".toList]) :=
  ⟨by decide, Trie.getSuggestions_stored MapOrder.newestLast ["cat".toList, "dog".toList]
    "caat".toList 1 "cat".toList (by decide)⟩

/-- Claim C6: when at most 10 distinct non-empty words of `ws` are within distance `k` of
the query, `getSuggestions` on the trie built from `ws` holds each of them exactly once. -/
theorem Trie.getSuggestions_complete (o : MapOrder) (ws : List (List Char)) (q : List Char)
    (k : Int)
    (hfew : (ws.dedup.filter
      (fun w => decide (w ≠ []) && decide (Trie.editDistance w q ≤ k))).length ≤ 10)
    (w : List Char) (hw : w ∈ ws) (hne : w ≠ []) (hd : Trie.editDistance w q ≤ k) :
    ((Trie.build o ws).getSuggestions q k).count w = 1 := by
  have hv := Trie.valid_build o ws
  have hlen : ((Trie.build o ws).enumerate.filter (Trie.withinDistance q k)).length ≤ 10 := by
    refine le_trans (Trie.length_filter_enumerate_le hv q k _ ?_) hfew
    intro v hs hdv
    obtain ⟨h1, h2⟩ := (Trie.search_build o ws v).1 hs
    rw [List.mem_filter, List.mem_dedup]
    exact ⟨h2, by simp [h1, hdv]⟩
  rw [Trie.getSuggestions_of_length_le hlen]
  apply count_eq_one_of_nodup_mem ((Trie.nodup_enumerate _ hv).filter _)
  exact (Trie.mem_filter_enumerate _ hv q k w).2 ⟨(Trie.search_build o ws w).2 ⟨hne, hw⟩, hd⟩

/-- Witness of C6: `cat` is listed once for the query `caat`, although inserted twice. -/
theorem Trie.getSuggestions_complete_witness :
    ((["cat".toList, "cart".toList, "cat".toList].dedup.filter
      (fun w => decide (w ≠ []) && decide (Trie.editDistance w "caat".toList ≤ 1))).length
        ≤ 10) ∧
    ((Trie.build MapOrder.newestLast
      ["cat".toList, "cart".toList, "cat".toList]).getSuggestions "caat".toList 1).count
        "cat".toList = 1 :=
  ⟨by decide, Trie.getSuggestions_complete MapOrder.newestLast
    ["cat".toList, "cart".toList, "cat".toList] "caat".toList 1 (by decide) "cat".toList
    (by decide) (by decide) (by decide)⟩

/-- Claim C7: `getSuggestions` is the first ten entries (all, when fewer) of the
depth-first pre-order enumeration of the trie filtered by the distance test: the
accumulating `dfs` followed by the cut is `suggest` with cap 10. -/
theorem Trie.getSuggestions_eq_suggest (t : Trie) (q : List Char) (k : Int) :
    t.getSuggestions q k = t.suggest q k 10 ∧
    t.getSuggestions q k =
      (t.enumerate.filter
        (fun w => !w.isEmpty && decide (Trie.editDistance w q ≤ k))).take 10 :=
  ⟨Trie.getSuggestions_eq_take t q k, Trie.getSuggestions_eq_take t q k⟩

/-! ## The dictionary's two operations -/

theorem DictionaryManager.search_ofTokens (o : MapOrder) (tokens : List (List Char))
    (w : List Char) :
    (DictionaryManager.ofTokens o tokens).dictionary.search w = true ↔
      w ∈ DictionaryManager.keysOf tokens := by
  rw [DictionaryManager.dictionary_ofTokens, Trie.search_build]
  constructor
  · exact fun h => h.2
  · exact fun h => ⟨((DictionaryManager.mem_keysOf tokens w).1 h).1, h⟩

/-- Counterexample to C8: after loading the token `Hello!123`, `isCorrect` of that same
string is false, while the trie holds its normalized form. -/
theorem DictionaryManager.isCorrect_raw_token :
    (DictionaryManager.ofTokens MapOrder.newestLast ["Hello!123".toList]).isCorrect
        "Hello!123".toList = false ∧
    (DictionaryManager.ofTokens MapOrder.newestLast ["Hello!123".toList]).dictionary.search
        (Normalizer.normalize "Hello!123".toList) = true := by
  decide

/-- Claim C8, amended: `isCorrect word` is `search word`, the argument is not normalized
(the caller does that); on a loaded dictionary it agrees with
`search (normalize word)` exactly on the words that are already normalized and is false on
every other word.  After loading the token `Hello!123`, `isCorrect` is true of `hello`
and of `normalize` of `Hello!123`. -/
theorem DictionaryManager.isCorrect_eq_search (o : MapOrder) (tokens : List (List Char))
    (dm : DictionaryManager) (word : List Char) :
    dm.isCorrect word = dm.dictionary.search word ∧
    (DictionaryManager.ofTokens o tokens).isCorrect word =
      (decide (Normalizer.normalize word = word) &&
        (DictionaryManager.ofTokens o tokens).dictionary.search (Normalizer.normalize word)) ∧
    (DictionaryManager.ofTokens o ["Hello!123".toList]).isCorrect "hello".toList = true ∧
    (DictionaryManager.ofTokens o ["Hello!123".toList]).isCorrect
      (Normalizer.normalize "Hello!123".toList) = true := by
  refine ⟨rfl, ?_, ?_, ?_⟩
  · unfold DictionaryManager.isCorrect
    by_cases hn : Normalizer.normalize word = word
    · simp [hn]
    · simp only [hn, decide_False, Bool.false_and]
      cases hs : (DictionaryManager.ofTokens o tokens).dictionary.search word with
      | false => rfl
      | true =>
        exact absurd (DictionaryManager.normalize_of_mem_keysOf
          ((DictionaryManager.search_ofTokens o tokens word).1 hs)) hn
  · exact (DictionaryManager.search_ofTokens o _ _).2 (by decide)
  · exact (DictionaryManager.search_ofTokens o _ _).2 (by decide)

/-- Counterexample to C9: with `hello` in the dictionary, the query `Hello!` gets no
suggestion, while the search on its normalized form returns `hello`. -/
theorem DictionaryManager.getSuggestions_raw_query :
    (DictionaryManager.ofTokens MapOrder.newestLast ["hello".toList]).getSuggestions
        "Hello!".toList = [] ∧
    (DictionaryManager.ofTokens MapOrder.newestLast ["hello".toList]).dictionary.getSuggestions
        (Normalizer.normalize "Hello!".toList) 1 = ["hello".toList] := by
  decide

/-- Claim C9, amended: `DictionaryManager.getSuggestions word` is the suggestion search
with maximum distance 1 and cap 10 run on the query as it is given (the caller
normalizes it): `Trie.getSuggestions word 1`, which is `suggest word 1 10`. -/
theorem DictionaryManager.getSuggestions_unnormalized (dm : DictionaryManager) (word : List Char) :
    dm.getSuggestions word = dm.dictionary.getSuggestions word 1 ∧
    dm.getSuggestions word = dm.dictionary.suggest word 1 10 ∧
    dm.getSuggestions (Normalizer.normalize word) =
      dm.dictionary.suggest (Normalizer.normalize word) 1 10 :=
  ⟨rfl, Trie.getSuggestions_eq_take _ _ _, Trie.getSuggestions_eq_take _ _ _⟩

/-- Counterexample to C10: `cart` is at distance 1 of `caat` and is suggested. -/
theorem DictionaryManager.scenario_cart_suggested :
    Trie.editDistance "cart".toList "caat".toList = 1 ∧
    "cart".toList ∈ (DictionaryManager.ofTokens MapOrder.newestLast
      ["cat".toList, "car".toList, "cart".toList, "dog".toList]).getSuggestions
        "caat".toList := by
  decide

/-- Claim C10, amended: in a dictionary whose vocabulary is exactly `cat`, `car`, `cart`,
`dog`, `isCorrect` is true of `cat` and false of `caat`, the distances from `cat` and
`car` to `caat` are 1 and 2, and the suggestions for `caat` hold `cat` and `cart` and hold
neither `car` nor `dog`. -/
theorem DictionaryManager.scenario_cat (o : MapOrder) (tokens : List (List Char))
    (hvoc : ∀ w, (DictionaryManager.ofTokens o tokens).isCorrect w = true ↔
      w ∈ ["cat".toList, "car".toList, "cart".toList, "dog".toList]) :
    (DictionaryManager.ofTokens o tokens).isCorrect "cat".toList = true ∧
    (DictionaryManager.ofTokens o tokens).isCorrect "caat".toList = false ∧
    Trie.editDistance "cat".toList "caat".toList = 1 ∧
    Trie.editDistance "car".toList "caat".toList = 2 ∧
    (∀ w, w ∈ (DictionaryManager.ofTokens o tokens).getSuggestions "caat".toList ↔
      w = "cat".toList ∨ w = "cart".toList) ∧
    "cat".toList ∈ (DictionaryManager.ofTokens o tokens).getSuggestions "caat".toList ∧
    "cart".toList ∈ (DictionaryManager.ofTokens o tokens).getSuggestions "caat".toList ∧
    "car".toList ∉ (DictionaryManager.ofTokens o tokens).getSuggestions "caat".toList ∧
    "dog".toList ∉ (DictionaryManager.ofTokens o tokens).getSuggestions "caat".toList := by
  have hv : (DictionaryManager.ofTokens o tokens).dictionary.root.Valid := by
    rw [DictionaryManager.dictionary_ofTokens]
    exact Trie.valid_build o _
  have hlen : ((DictionaryManager.ofTokens o tokens).dictionary.enumerate.filter
      (Trie.withinDistance "caat".toList 1)).length ≤ 10 := by
    refine le_trans (Trie.length_filter_enumerate_le hv _ _
      ["cat".toList, "car".toList, "cart".toList, "dog".toList] ?_) (by decide)
    intro w hs _
    exact (hvoc w).1 hs
  have hmem : ∀ w, w ∈ (DictionaryManager.ofTokens o tokens).getSuggestions "caat".toList ↔
      w = "cat".toList ∨ w = "cart".toList := by
    intro w
    unfold DictionaryManager.getSuggestions
    rw [Trie.getSuggestions_of_length_le hlen, Trie.mem_filter_enumerate _ hv]
    constructor
    · rintro ⟨hs, hd⟩
      have hw := (hvoc w).1 hs
      simp only [List.mem_cons, List.mem_singleton, List.not_mem_nil, or_false] at hw
      rcases hw with h | h | h | h
      · left; exact h
      · subst h; exact absurd hd (by decide)
      · right; exact h
      · subst h; exact absurd hd (by decide)
    · rintro (h | h)
      · subst h; exact ⟨(hvoc _).2 (by decide), by decide⟩
      · subst h; exact ⟨(hvoc _).2 (by decide), by decide⟩
  refine ⟨(hvoc _).2 (by decide), ?_, by decide, by decide, hmem, (hmem _).2 (Or.inl rfl),
    (hmem _).2 (Or.inr rfl), ?_, ?_⟩
  · cases h : (DictionaryManager.ofTokens o tokens).isCorrect "caat".toList with
    | false => rfl
    | true => exact absurd ((hvoc _).1 h) (by decide)
  · intro h; exact absurd ((hmem _).1 h) (by decide)
  · intro h; exact absurd ((hmem _).1 h) (by decide)

/-- Witness of C10: the dictionary loaded from the four words in the order given. -/
theorem DictionaryManager.scenario_cat_witness :
    (∀ w, (DictionaryManager.ofTokens MapOrder.newestLast
        ["cat".toList, "car".toList, "cart".toList, "dog".toList]).isCorrect w = true ↔
      w ∈ ["cat".toList, "car".toList, "cart".toList, "dog".toList]) ∧
    "cart".toList ∈ (DictionaryManager.ofTokens MapOrder.newestLast
      ["cat".toList, "car".toList, "cart".toList, "dog".toList]).getSuggestions
        "caat".toList ∧
    "car".toList ∉ (DictionaryManager.ofTokens MapOrder.newestLast
      ["cat".toList, "car".toList, "cart".toList, "dog".toList]).getSuggestions
        "caat".toList := by
  have hvoc : ∀ w, (DictionaryManager.ofTokens MapOrder.newestLast
        ["cat".toList, "car".toList, "cart".toList, "dog".toList]).isCorrect w = true ↔
      w ∈ ["cat".toList, "car".toList, "cart".toList, "dog".toList] := by
    intro w
    unfold DictionaryManager.isCorrect
    rw [DictionaryManager.search_ofTokens]
    exact Iff.of_eq (congrArg (fun l => w ∈ l) (by decide))
  have h := DictionaryManager.scenario_cat MapOrder.newestLast
    ["cat".toList, "car".toList, "cart".toList, "dog".toList] hvoc
  exact ⟨hvoc, h.2.2.2.2.2.2.1, h.2.2.2.2.2.2.2.1⟩

/-! ## Normalization, character by character -/

namespace Normalizer

theorem isAlpha_eq_isLetter (c : Char) : c.isAlpha = isLetter c := rfl

theorem toLower_eq_lower (c : Char) : c.toLower = lower c := by
  unfold Char.toLower lower
  rfl

theorem ascii_lower_range : ∀ n : Nat, n < 128 → (Char.ofNat n).isAlpha = true →
    'a' ≤ (Char.ofNat n).toLower ∧ (Char.ofNat n).toLower ≤ 'z' := by
  decide

theorem toLower_range (c : Char) (h : c.isAlpha = true) :
    'a' ≤ c.toLower ∧ c.toLower ≤ 'z' := by
  have h1 := ascii_lower_range c.toNat (toNat_lt_of_isAlpha c h)
  rw [Char.ofNat_toNat] at h1
  exact h1 h

theorem normalize_eq_filter_map (t : List Char) :
    normalize t = (t.filter isLetter).map lower := by
  rw [normalize_eq_filterMap]
  induction t with
  | nil => rfl
  | cons c t ih =>
    by_cases hc : c.isAlpha = true
    · have hl : isLetter c = true := hc
      simp [List.filterMap_cons, List.filter_cons, normChar, hc, hl, ih, toLower_eq_lower]
    · have hl : ¬ isLetter c = true := hc
      simp [List.filterMap_cons, List.filter_cons, normChar, hc, hl, ih]

/-- Claim C11: `normalize t` is the letters of `t` (A-Z, a-z) in their order, each in
lowercase, everything else dropped; so every character of the result is in a-z, the
result is empty exactly when `t` has no letter, and `Hello!123` becomes `hello`. -/
theorem normalize_letters_lowered (t : List Char) :
    normalize t = (t.filter isLetter).map lower ∧
    (∀ c ∈ normalize t, 'a' ≤ c ∧ c ≤ 'z') ∧
    (normalize t = [] ↔ ∀ c ∈ t, isLetter c = false) ∧
    normalize "Hello!123".toList = "hello".toList := by
  refine ⟨normalize_eq_filter_map t, ?_, ?_, by decide⟩
  · intro c hc
    rw [normalize_eq_filter_map, List.mem_map] at hc
    obtain ⟨d, hd, hdc⟩ := hc
    rw [← hdc, ← toLower_eq_lower]
    exact toLower_range d (List.mem_filter.1 hd).2
  · rw [normalize_eq_filter_map, List.map_eq_nil_iff, List.filter_eq_nil_iff]
    constructor
    · intro h c hc
      simpa using h c hc
    · intro h c hc
      simp [h c hc]

/-- Claim C12: normalization is idempotent. -/
theorem normalize_idempotent (x : List Char) : normalize (normalize x) = normalize x :=
  normalize_idem x

end Normalizer

/-! ## Algebra and bounds of the edit distance -/

/-- Claim C13: the edit distance is symmetric in its two arguments, although the table
is indexed by the first along the rows and by the second along the columns. -/
theorem Trie.editDistance_symmetric (a b : List Char) :
    Trie.editDistance a b = Trie.editDistance b a := by
  rw [Trie.editDistance_eq_lev, Trie.editDistance_eq_lev, lev_comm]

/-- Claim C14: the edit distance of a string to itself is 0. -/
theorem Trie.editDistance_self (a : List Char) : Trie.editDistance a a = 0 := by
  rw [Trie.editDistance_eq_lev, lev_self]
  rfl

/-- Claim C15: the edit distance from the empty string to `b` is the length of `b`. -/
theorem Trie.editDistance_empty_left (b : List Char) :
    Trie.editDistance [] b = (b.length : Int) := by
  rw [Trie.editDistance_eq_lev, lev_nil_left]

theorem Align.length_le {a b : List Char} {n : Nat} (h : Align a b n) :
    a.length ≤ b.length + n ∧ b.length ≤ a.length + n := by
  induction h with
  | nil => simp
  | keep c _ ih => simp only [List.length_cons]; omega
  | subst c d _ ih => simp only [List.length_cons]; omega
  | ins d _ ih => simp only [List.length_cons]; omega
  | del c _ ih => simp only [List.length_cons]; omega

theorem lev_le_max_length (a b : List Char) : lev a b ≤ max a.length b.length := by
  induction a, b using lev.induct with
  | case1 b => rw [lev_nil_left]; simp
  | case2 x a => rw [lev_nil_right]; simp
  | case3 x a y b _ _ ih3 =>
    rw [lev_cons_cons]
    simp only [List.length_cons]
    by_cases hxy : x = y
    · simp only [hxy, if_true]; omega
    · simp only [hxy, if_false]; omega

theorem Trie.editDistance_bounds (a b : List Char) :
    |(a.length : Int) - (b.length : Int)| ≤ Trie.editDistance a b ∧
    Trie.editDistance a b ≤ max (a.length : Int) (b.length : Int) := by
  rw [Trie.editDistance_eq_lev]
  obtain ⟨h1, h2⟩ := (align_lev a b).length_le
  have h3 := lev_le_max_length a b
  constructor
  · rw [abs_le]; omega
  · have : ((lev a b : Nat) : Int) ≤ ((max a.length b.length : Nat) : Int) := by
      exact_mod_cast h3
    simpa using this

theorem Trie.editDistance_le_of_mem (t : Trie) (q : List Char) (k : Int) (w : List Char)
    (h : w ∈ t.getSuggestions q k) : Trie.editDistance w q ≤ k := by
  rw [Trie.getSuggestions_eq_take] at h
  have h2 := (List.mem_filter.1 (List.mem_of_mem_take h)).2
  simp only [Trie.withinDistance, Bool.and_eq_true, decide_eq_true_eq] at h2
  exact h2.2

/-- Claim C19: `editDistance a b` is at least the difference of the two lengths and at
most the larger length; so a word returned by `Trie.getSuggestions q k` differs in length
from `q` by at most `k`, and one returned by `DictionaryManager.getSuggestions` by at
most 1. -/
theorem Trie.editDistance_length_bounds (a b : List Char) (t : Trie) (q : List Char)
    (k : Int) (w : List Char) (hw : w ∈ t.getSuggestions q k) (dm : DictionaryManager)
    (word e : List Char) (he : e ∈ dm.getSuggestions word) :
    |(a.length : Int) - (b.length : Int)| ≤ Trie.editDistance a b ∧
    Trie.editDistance a b ≤ max (a.length : Int) (b.length : Int) ∧
    |(w.length : Int) - (q.length : Int)| ≤ k ∧
    |(e.length : Int) - (word.length : Int)| ≤ 1 :=
  ⟨(Trie.editDistance_bounds a b).1, (Trie.editDistance_bounds a b).2,
    le_trans (Trie.editDistance_bounds w q).1 (Trie.editDistance_le_of_mem t q k w hw),
    le_trans (Trie.editDistance_bounds e word).1
      (Trie.editDistance_le_of_mem dm.dictionary word 1 e he)⟩

/-- Witness of C19: `cart` is suggested for `caat`, and `cat` one character shorter. -/
theorem Trie.editDistance_length_bounds_witness :
    ("cart".toList ∈ (Trie.build MapOrder.newestLast
        ["cat".toList, "cart".toList]).getSuggestions "caat".toList 1 ∧
      "cat".toList ∈ (DictionaryManager.ofTokens MapOrder.newestLast
        ["cat".toList, "cart".toList]).getSuggestions "caat".toList) ∧
    (|(("dog".toList).length : Int) - (("caat".toList).length : Int)| ≤
        Trie.editDistance "dog".toList "caat".toList ∧
      Trie.editDistance "dog".toList "caat".toList ≤
        max (("dog".toList).length : Int) (("caat".toList).length : Int) ∧
      |(("cart".toList).length : Int) - (("caat".toList).length : Int)| ≤ 1 ∧
      |(("cat".toList).length : Int) - (("caat".toList).length : Int)| ≤ 1) :=
  ⟨⟨by decide, by decide⟩,
    Trie.editDistance_length_bounds "dog".toList "caat".toList
      (Trie.build MapOrder.newestLast ["cat".toList, "cart".toList]) "caat".toList 1
      "cart".toList (by decide)
      (DictionaryManager.ofTokens MapOrder.newestLast ["cat".toList, "cart".toList])
      "caat".toList "cat".toList (by decide)⟩

/-! ## Repeated insertion -/

namespace TrieNode

theorem find_arrange_new (o : MapOrder) {c : Char} {ch : List (Char × TrieNode)}
    (x : TrieNode) (h : find c ch = none) : find c (o.arrange ((c, x) :: ch)) = some x := by
  have hperm := o.perm ((c, x) :: ch)
  have hnot := (find_eq_none_iff c ch).1 h
  cases hf : find c (o.arrange ((c, x) :: ch)) with
  | none =>
    exfalso
    apply (find_eq_none_iff c _).1 hf
    rw [(hperm.map Prod.fst).mem_iff]
    simp
  | some y =>
    rcases List.mem_cons.1 (hperm.mem_iff.1 (mem_of_find_eq_some hf)) with h1 | h1
    · cases h1; rfl
    · exact absurd (List.mem_map_of_mem Prod.fst h1) hnot

theorem assign_same {c : Char} {v : TrieNode} {l : List (Char × TrieNode)}
    (h : find c l = some v) : assign c v l = l := by
  induction l with
  | nil => rfl
  | cons p rest ih =>
    obtain ⟨a, m⟩ := p
    by_cases ha : a = c
    · simp only [find, ha, if_true, Option.some.injEq] at h
      simp [assign, ha, h]
    · simp only [find, ha, if_false] at h
      simp [assign, ha, ih h]

end TrieNode

namespace Trie

theorem insertFrom_insertFrom (o : MapOrder) (w : List Char) :
    ∀ n : TrieNode, insertFrom o w (insertFrom o w n) = insertFrom o w n := by
  induction w with
  | nil =>
    intro n
    cases n with
    | mk ch e => rfl
  | cons c cs ih =>
    intro n
    cases n with
    | mk ch e =>
      cases hf : TrieNode.find c ch with
      | none =>
        have h1 : insertFrom o (c :: cs) (.mk ch e) =
            .mk (o.arrange ((c, insertFrom o cs TrieNode.new) :: ch)) e := by
          simp only [insertFrom, hf]
        have h2 := TrieNode.find_arrange_new o (insertFrom o cs TrieNode.new) hf
        rw [h1]
        simp only [insertFrom, h2]
        rw [ih, TrieNode.assign_same h2]
      | some child =>
        have h1 : insertFrom o (c :: cs) (.mk ch e) =
            .mk (TrieNode.assign c (insertFrom o cs child) ch) e := by
          simp only [insertFrom, hf]
        have h2 : TrieNode.find c (TrieNode.assign c (insertFrom o cs child) ch) =
            some (insertFrom o cs child) := by
          rw [TrieNode.find_assign hf]; simp
        rw [h1]
        simp only [insertFrom, h2]
        rw [ih, TrieNode.assign_same h2]

/-- Claim C16: `insert` is idempotent: inserting `w` into a trie that already results
from inserting `w` returns the same tree, node for node, whatever the trie and the
iteration order of its maps. -/
theorem insert_idempotent (o : MapOrder) (t : Trie) (w : List Char) :
    insert o (insert o t w) w = insert o t w := by
  unfold insert
  by_cases hw : w.isEmpty = true
  · simp [hw]
  · have hw2 : w.isEmpty = false := by simpa using hw
    simp only [hw2, Bool.false_eq_true, if_false]
    rw [insertFrom_insertFrom]

end Trie

/-! ## Loading the dictionary -/

/-- Claim C17: after the load loop, `search k` is true exactly when `k` is not empty and
is `normalize t` of some token `t`; so two token lists with the same tokens, in any
order and with any repetition, give dictionaries that answer `search` alike, and a token
without a letter adds nothing. -/
theorem DictionaryManager.load_vocabulary (o o2 : MapOrder)
    (tokens tokens2 : List (List Char)) (hsame : ∀ t, t ∈ tokens ↔ t ∈ tokens2)
    (t0 : List Char) (hnone : ∀ c ∈ t0, Normalizer.isLetter c = false) (k : List Char) :
    ((DictionaryManager.ofTokens o tokens).dictionary.search k = true ↔
      k ≠ [] ∧ ∃ t ∈ tokens, k = Normalizer.normalize t) ∧
    (DictionaryManager.ofTokens o tokens).dictionary.search k =
      (DictionaryManager.ofTokens o2 tokens2).dictionary.search k ∧
    (DictionaryManager.ofTokens o (t0 :: tokens)).dictionary.search k =
      (DictionaryManager.ofTokens o tokens).dictionary.search k := by
  have hchar : ∀ (o : MapOrder) (toks : List (List Char)),
      (DictionaryManager.ofTokens o toks).dictionary.search k = true ↔
        k ≠ [] ∧ ∃ t ∈ toks, k = Normalizer.normalize t := by
    intro o toks
    rw [DictionaryManager.search_ofTokens, DictionaryManager.mem_keysOf]
    constructor
    · rintro ⟨h1, t, ht, h2⟩; exact ⟨h1, t, ht, h2.symm⟩
    · rintro ⟨h1, t, ht, h2⟩; exact ⟨h1, t, ht, h2.symm⟩
  have ht0 : Normalizer.normalize t0 = [] := by
    rw [Normalizer.normalize_eq_filter_map, List.map_eq_nil_iff, List.filter_eq_nil_iff]
    intro c hc
    simp [hnone c hc]
  refine ⟨hchar o tokens, ?_, ?_⟩
  · rw [Bool.eq_iff_iff, hchar o tokens, hchar o2 tokens2]
    constructor
    · rintro ⟨h1, t, ht, h2⟩; exact ⟨h1, t, (hsame t).1 ht, h2⟩
    · rintro ⟨h1, t, ht, h2⟩; exact ⟨h1, t, (hsame t).2 ht, h2⟩
  · rw [Bool.eq_iff_iff, hchar o (t0 :: tokens), hchar o tokens]
    constructor
    · rintro ⟨h1, t, ht, h2⟩
      rcases List.mem_cons.1 ht with h | h
      · subst h; exact absurd (h2.trans ht0) h1
      · exact ⟨h1, t, h, h2⟩
    · rintro ⟨h1, t, ht, h2⟩
      exact ⟨h1, t, List.mem_cons_of_mem _ ht, h2⟩

/-- Witness of C17: the tokens `Cat dog Cat` against `dog Cat`, and the token `42`. -/
theorem DictionaryManager.load_vocabulary_witness :
    ((∀ t, t ∈ ["Cat".toList, "dog".toList, "Cat".toList] ↔
        t ∈ ["dog".toList, "Cat".toList]) ∧
      (∀ c ∈ "42".toList, Normalizer.isLetter c = false)) ∧
    (((DictionaryManager.ofTokens MapOrder.newestLast
        ["Cat".toList, "dog".toList, "Cat".toList]).dictionary.search "cat".toList = true ↔
      "cat".toList ≠ [] ∧ ∃ t ∈ ["Cat".toList, "dog".toList, "Cat".toList],
        "cat".toList = Normalizer.normalize t) ∧
    (DictionaryManager.ofTokens MapOrder.newestLast
        ["Cat".toList, "dog".toList, "Cat".toList]).dictionary.search "cat".toList =
      (DictionaryManager.ofTokens MapOrder.newestFirst
        ["dog".toList, "Cat".toList]).dictionary.search "cat".toList ∧
    (DictionaryManager.ofTokens MapOrder.newestLast
        ("42".toList :: ["Cat".toList, "dog".toList, "Cat".toList])).dictionary.search
          "cat".toList =
      (DictionaryManager.ofTokens MapOrder.newestLast
        ["Cat".toList, "dog".toList, "Cat".toList]).dictionary.search "cat".toList) :=
  ⟨⟨by intro t; simp; tauto, by decide⟩,
    DictionaryManager.load_vocabulary MapOrder.newestLast MapOrder.newestFirst
      ["Cat".toList, "dog".toList, "Cat".toList] ["dog".toList, "Cat".toList]
      (by intro t; simp; tauto) "42".toList (by decide) "cat".toList⟩

/-- Counterexample to C18: a file that opens and holds no token loads without error; the
result is the empty dictionary. -/
theorem DictionaryManager.load_empty_file_ok :
    DictionaryManager.loadDictionary MapOrder.newestLast (some []) Trie.new = .ok Trie.new ∧
    DictionaryManager.loadDictionary MapOrder.newestLast (some []) Trie.new ≠
      .error .cannotOpen := by
  refine ⟨rfl, ?_⟩
  intro h
  cases h

/-- Claim C18, amended: loading fails, with the error for a source that cannot be opened,
exactly when the file cannot be opened; a file that opens and yields no token loads the empty dictionary,
on which `isCorrect` is false and `getSuggestions` is empty for every word. -/
theorem DictionaryManager.load_fails_iff_unopened (o : MapOrder)
    (file : Option (List (List Char))) (word : List Char) :
    (DictionaryManager.loadDictionary o file Trie.new = .error .cannotOpen ↔ file = none) ∧
    ((∃ e, DictionaryManager.create o file = .error e) ↔ file = none) ∧
    DictionaryManager.create o (some []) = .ok ⟨Trie.new⟩ ∧
    (DictionaryManager.ofTokens o []).isCorrect word = false ∧
    (DictionaryManager.ofTokens o []).getSuggestions word = [] := by
  refine ⟨?_, ?_, rfl, ?_, ?_⟩
  · cases file with
    | none => simp [DictionaryManager.loadDictionary]
    | some tokens => simp [DictionaryManager.loadDictionary]
  · cases file with
    | none => exact ⟨fun _ => rfl, fun _ => ⟨.cannotOpen, rfl⟩⟩
    | some tokens => simp [DictionaryManager.create, DictionaryManager.loadDictionary]
  · exact Trie.search_new word
  · rfl
